import Mathlib

/-!
Gesture lock (STM32F429I-DISC1): embedding of `SPI_proj/src/main.cpp`

The controller samples a 3-axis gyroscope, records a reference sequence and
compares freshly captured sequences against it.

Modelling conventions
* `int16_t x[]` is a map `Nat → Int` from index to value; the code touches only
  the indices below the array length, `int16_t s[NUM_AXES][SEQUENCE_LENGTH]`
  is `Nat → Nat → Int` (axis first).
* `double` has two embeddings.
  `mean`, `stddev`, `sequenceMatch` take every `double` operation as the exact
  operation on real numbers; they are noncomputable and carry the properties
  that are stated over exact arithmetic.
  `mean64`, `stddev64`, `sequenceMatch64` round every operation to binary64
  (nearest, ties to even) and are what the processor computes; they are
  computable on rational numbers. The two verdicts can differ when a delta
  lies within rounding distance of the tolerance, so the tolerance test is
  settled on the binary64 functions, and reflexivity, symmetry and the
  rejection of an offset above the tolerance are proved on both.
* `uint8_t` is `Fin 256`.
* Hardware inputs (timer readings, receive buffer after a transfer) are
  arguments of the functions that consume them.
-/

namespace GestureLock

/-! ## Constants (`#define`s) -/

def SEQUENCE_LENGTH : Nat := 50
def RECORDING_INTERVAL_MS : Nat := 2000
def TOLERANCE : Nat := 1000
def NUM_AXES : Nat := 3

/-! ## Statistics in exact arithmetic -/

/-- `double mean(int16_t data[], int size)` with exact operations:
`std::accumulate` from `0.0`, then division by `size`. The rounded computation
is `mean64`. -/
noncomputable def mean (data : Nat → Int) (size : Nat) : ℝ :=
  let sum : ℝ := (List.range size).foldl (fun acc i => acc + (data i : ℝ)) 0
  sum / (size : ℝ)

/-- `double stddev(int16_t data[], int size, double mean)` with exact
operations. The rounded computation is `stddev64`. -/
noncomputable def stddev (data : Nat → Int) (size : Nat) (mean : ℝ) : ℝ :=
  let sum : ℝ :=
    (List.range size).foldl
      (fun sum i => sum + ((data i : ℝ) - mean) * ((data i : ℝ) - mean)) 0
  Real.sqrt (sum / (size : ℝ))

/-- The `for (int axis = 0; axis < NUM_AXES; axis++)` loop of `sequenceMatch`,
entered at `axis`, on the exact statistics. The tolerance is a parameter; the
program fixes it to `TOLERANCE` (see `sequenceMatch`). The rounded computation
is `sequenceMatchLoop64`. -/
noncomputable def sequenceMatchLoop (tol : ℝ) (seq1 seq2 : Nat → Nat → Int)
    (axis : Nat) : Bool :=
  if axis < NUM_AXES then
    let mean1 := mean (seq1 axis) SEQUENCE_LENGTH
    let mean2 := mean (seq2 axis) SEQUENCE_LENGTH
    let stddev1 := stddev (seq1 axis) SEQUENCE_LENGTH mean1
    let stddev2 := stddev (seq2 axis) SEQUENCE_LENGTH mean2
    if abs (mean1 - mean2) > tol ∨ abs (stddev1 - stddev2) > tol then
      false
    else
      sequenceMatchLoop tol seq1 seq2 (axis + 1)
  else
    true
termination_by NUM_AXES - axis
decreasing_by
  simp_wf
  omega

/-- `bool sequenceMatch(int16_t seq1[][SEQUENCE_LENGTH], int16_t seq2[][SEQUENCE_LENGTH])`
with exact operations: the verdict the code would give if `double` arithmetic
did not round. The verdict of the rounded computation is `sequenceMatch64`. -/
noncomputable def sequenceMatch (seq1 seq2 : Nat → Nat → Int) : Bool :=
  sequenceMatchLoop (TOLERANCE : ℝ) seq1 seq2 0

/-! ## Reference statistics (mathematical definitions) -/

/-- Arithmetic mean of the first `n` samples: the sum divided by `n`. -/
noncomputable def popMean (data : Nat → Int) (n : Nat) : ℝ :=
  (∑ i in Finset.range n, (data i : ℝ)) / (n : ℝ)

/-- Population standard deviation of the first `n` samples (divisor `n`). -/
noncomputable def popStddev (data : Nat → Int) (n : Nat) : ℝ :=
  Real.sqrt ((∑ i in Finset.range n, ((data i : ℝ) - popMean data n) ^ 2) / (n : ℝ))

/-! ## Statistics in binary64 arithmetic

The processor computes `mean`, `stddev` and the two deltas in IEEE 754
binary64 with every operation rounded to nearest, ties to even. A binary64
value is represented by the rational number it denotes. The exponent range,
infinities and NaN are left out: on `int16_t` samples with `size = 50` the
magnitudes that arise stay far inside the normal range. -/

/-- Nearest integer to `n`, a tie going to the even neighbour. -/
def roundEven (n : ℚ) : ℤ :=
  let m : ℤ := ⌊n⌋
  if n - m < 1 / 2 then m
  else if 1 / 2 < n - m then m + 1
  else if m % 2 = 0 then m else m + 1

/-- Rounding of an exact result to binary64: the nearest number with a 53-bit
significand, ties to even. -/
def round64 (q : ℚ) : ℚ :=
  if q = 0 then 0 else
    let e : ℤ := Int.log 2 |q| - 52
    if q < 0 then -((roundEven (|q| / 2 ^ e) : ℚ) * 2 ^ e)
    else (roundEven (|q| / 2 ^ e) : ℚ) * 2 ^ e

/-- `std::sqrt` on binary64: the correctly rounded square root of a positive
binary64 value, and 0 for 0. The argument in `stddev` is a rounded sum of
squares divided by the size and is never negative. -/
def sqrt64 (q : ℚ) : ℚ :=
  if q ≤ 0 then 0 else
    let e : ℤ := Int.log 2 q / 2 - 52
    let n : ℚ := q / 2 ^ (2 * e)
    let m : ℤ := Nat.sqrt ⌊n⌋₊
    let h : ℚ := ((m : ℚ) + 1 / 2) ^ 2
    let r : ℤ :=
      if n < h then m
      else if h < n then m + 1
      else if m % 2 = 0 then m else m + 1
    (r : ℚ) * 2 ^ e

/-- `double mean(int16_t data[], int size)` in binary64, for `size > 0`: each
addition of `std::accumulate` and the division are rounded. -/
def mean64 (data : Nat → Int) (size : Nat) : ℚ :=
  let sum : ℚ := (List.range size).foldl (fun acc i => round64 (acc + (data i : ℚ))) 0
  round64 (sum / (size : ℚ))

/-- `double stddev(int16_t data[], int size, double mean)` in binary64: the two
subtractions, the product, the addition, the division and the square root are
each rounded. -/
def stddev64 (data : Nat → Int) (size : Nat) (mean : ℚ) : ℚ :=
  let sum : ℚ :=
    (List.range size).foldl
      (fun sum i =>
        round64 (sum + round64 (round64 ((data i : ℚ) - mean) * round64 ((data i : ℚ) - mean))))
      0
  sqrt64 (round64 (sum / (size : ℚ)))

/-- The axis loop of `sequenceMatch` in binary64, entered at `axis`: the two
differences are rounded, `std::abs` is exact, and `TOLERANCE` converts to
`tol` exactly. -/
def sequenceMatchLoop64 (tol : ℚ) (seq1 seq2 : Nat → Nat → Int) (axis : Nat) : Bool :=
  if axis < NUM_AXES then
    let mean1 := mean64 (seq1 axis) SEQUENCE_LENGTH
    let mean2 := mean64 (seq2 axis) SEQUENCE_LENGTH
    let stddev1 := stddev64 (seq1 axis) SEQUENCE_LENGTH mean1
    let stddev2 := stddev64 (seq2 axis) SEQUENCE_LENGTH mean2
    if abs (round64 (mean1 - mean2)) > tol ∨ abs (round64 (stddev1 - stddev2)) > tol then
      false
    else
      sequenceMatchLoop64 tol seq1 seq2 (axis + 1)
  else
    true
termination_by NUM_AXES - axis
decreasing_by
  simp_wf
  omega

/-- `bool sequenceMatch(...)` as the processor computes it, in binary64. -/
def sequenceMatch64 (seq1 seq2 : Nat → Nat → Int) : Bool :=
  sequenceMatchLoop64 (TOLERANCE : ℚ) seq1 seq2 0

/-! ## Sensor read -/

/-- Conversion of an `int` value to `int16_t`: reduction modulo `2^16` into the
two's-complement range. -/
def toInt16 (n : Int) : Int :=
  if n % 65536 < 32768 then n % 65536 else n % 65536 - 65536

/-- The expression `(((uint16_t)hi) << 8) | ((uint16_t)lo)` assigned to an
`int16_t`. -/
def decodeAxis (lo hi : Fin 256) : Int :=
  toInt16 (((hi.val <<< 8) ||| lo.val : Nat) : Int)

/-- `void read_gyro_data(int16_t *data)`: `read_buf` is the receive buffer once
the burst transfer has completed, `data` the caller's array before the call;
the result is that array after the three assignments. -/
def read_gyro_data (read_buf : Nat → Fin 256) (data : Nat → Int) : Nat → Int :=
  let data := Function.update data 0 (decodeAxis (read_buf 1) (read_buf 2))
  let data := Function.update data 1 (decodeAxis (read_buf 3) (read_buf 4))
  let data := Function.update data 2 (decodeAxis (read_buf 5) (read_buf 6))
  data

/-- Little-endian byte pair (low byte, high byte) of the 16-bit two's-complement
representation of `v`: the format in which the sensor sends an axis value. -/
def leBytes (v : Int) : Fin 256 × Fin 256 :=
  (⟨(v % 65536).toNat % 256, Nat.mod_lt _ (by decide)⟩,
   ⟨(v % 65536).toNat / 256 % 256, Nat.mod_lt _ (by decide)⟩)

/-- A value fits `int16_t`. -/
def isInt16 (v : Int) : Prop := -32768 ≤ v ∧ v ≤ 32767

/-! ## Controller state, inputs and outputs -/

/-- The global variables of the program and the two LED outputs. -/
structure State where
  recordedSequence : Nat → Nat → Int
  sequenceIndex : Nat
  recording : Bool
  hasRecordedSequence : Bool
  recordLed : Bool
  unlockLed : Bool

/-- State at the entry of `main`: zero-initialised globals, LEDs off. -/
def initState : State :=
  { recordedSequence := fun _ _ => 0
    sequenceIndex := 0
    recording := false
    hasRecordedSequence := false
    recordLed := false
    unlockLed := false }

/-- What the hardware supplies during one iteration of `while (1)`:
`clock k` is the value of `recordingTimer.elapsed_time()` in whole
milliseconds (rounded down, which preserves the comparison with a whole
number of milliseconds) at the evaluation number `k` of the recording loop's
condition, `gyro k` is the receive buffer after the burst transfer number `k`
of the iteration. Each wait on the event flags is taken to return. -/
structure IterEnv where
  clock : Nat → Nat
  gyro : Nat → Nat → Fin 256

/-- Console lines written by `printf`. -/
inductive Msg where
  | startedRecording
  | stoppedRecording
  | comparing
  | sequenceMatched
deriving DecidableEq

/-- Observable outputs: console lines and writes to the two LEDs. -/
inductive Output where
  | console (m : Msg)
  | recordLed (v : Bool)
  | unlockLed (v : Bool)
deriving DecidableEq

/-- Sample number `k` of an iteration, as `read_gyro_data` delivers it into a
fresh local `int16_t data[NUM_AXES]`. -/
def sample (env : IterEnv) (k : Nat) : Nat → Int :=
  read_gyro_data (env.gyro k) (fun _ => 0)

/-- `void buttonPressed_cb()`. -/
def buttonPressed_cb (s : State) : State :=
  if !s.recording then
    { s with recording := true, recordLed := true, sequenceIndex := 0 }
  else
    s

/-- The loop `for (axis = 0; axis < NUM_AXES; axis++) seq[axis][index] = data[axis];`. -/
def storeSample (seq : Nat → Nat → Int) (index : Nat) (data : Nat → Int) : Nat → Nat → Int :=
  (List.range NUM_AXES).foldl
    (fun sq axis => Function.update sq axis (Function.update (sq axis) index (data axis))) seq

/-- The recording loop of `main`,
`while (elapsed_time() < budget && sequenceIndex < SEQUENCE_LENGTH)`, entered
with `k` samples already read in this cycle. `main` runs it with
`budget = RECORDING_INTERVAL_MS`. -/
def recordLoop (budget : Nat) (env : IterEnv) (k : Nat) (s : State) : State :=
  if env.clock k < budget ∧ s.sequenceIndex < SEQUENCE_LENGTH then
    let data := sample env k
    recordLoop budget env (k + 1)
      { s with
        recordedSequence := storeSample s.recordedSequence s.sequenceIndex data
        sequenceIndex := s.sequenceIndex + 1 }
  else
    s
termination_by SEQUENCE_LENGTH - s.sequenceIndex
decreasing_by
  simp_wf
  omega

/-- The capture loop of the matching branch: `currentSequence` after
`for (i = 0; i < SEQUENCE_LENGTH; i++)`. -/
def captureSequence (env : IterEnv) : Nat → Nat → Int :=
  (List.range SEQUENCE_LENGTH).foldl
    (fun cur i => storeSample cur i (sample env i)) (fun _ _ => 0)

/-- One iteration of `while (1)` in `main`: the state after it and the outputs
it produced, in order. The display calls and the sleeps are left out; the
verdict is the one the processor computes, `sequenceMatch64`.

The iteration is taken as one step. The button handler writes only while
`recording` is false; the recording branch keeps `recording` true up to its
last three assignments and the matching branch does not read `recording`,
`recordLed` or `sequenceIndex` after its test, so a press that arrives during
an iteration has the effect of a press right after it. -/
def mainIteration (env : IterEnv) (s : State) : State × List Output :=
  if s.recording then
    let s1 := recordLoop RECORDING_INTERVAL_MS env 0 s
    ({ s1 with recording := false, recordLed := false, hasRecordedSequence := true },
      [Output.console Msg.startedRecording, Output.console Msg.stoppedRecording,
        Output.recordLed false])
  else if s.hasRecordedSequence then
    let currentSequence := captureSequence env
    if sequenceMatch64 s.recordedSequence currentSequence then
      ({ s with unlockLed := false },
        [Output.console Msg.comparing, Output.console Msg.sequenceMatched,
          Output.unlockLed true, Output.unlockLed false])
    else
      (s, [Output.console Msg.comparing])
  else
    (s, [])

/-- An event of a run: the button interrupt or one iteration of the main loop. -/
inductive Input where
  | buttonPress
  | iteration (env : IterEnv)

/-- Effect of one event on the state, with the outputs it produces. -/
def handle (s : State) : Input → State × List Output
  | Input.buttonPress =>
      (buttonPressed_cb s, if s.recording then [] else [Output.recordLed true])
  | Input.iteration env => mainIteration env s

/-- State and output trace after a list of events. -/
def run (s : State) : List Input → State × List Output
  | [] => (s, [])
  | i :: rest =>
      let r := handle s i
      let r2 := run r.1 rest
      (r2.1, r.2 ++ r2.2)

/-! ## Auxiliary definitions: predicates and concrete inputs -/

/-- Per-axis acceptance test of `sequenceMatch`, on the code's statistics. -/
def axisAccepted (tol : ℝ) (seq1 seq2 : Nat → Nat → Int) (axis : Nat) : Prop :=
  abs (mean (seq1 axis) SEQUENCE_LENGTH - mean (seq2 axis) SEQUENCE_LENGTH) ≤ tol ∧
  abs (stddev (seq1 axis) SEQUENCE_LENGTH (mean (seq1 axis) SEQUENCE_LENGTH)
        - stddev (seq2 axis) SEQUENCE_LENGTH (mean (seq2 axis) SEQUENCE_LENGTH)) ≤ tol

/-- State after a recording loop that stored `n` samples starting at read
number `k`. -/
def afterRecording (env : IterEnv) (k n : Nat) (s : State) : State :=
  { s with
    recordedSequence := fun axis i =>
      if axis < NUM_AXES ∧ s.sequenceIndex ≤ i ∧ i < s.sequenceIndex + n then
        sample env (k + (i - s.sequenceIndex)) axis
      else s.recordedSequence axis i
    sequenceIndex := s.sequenceIndex + n }

/-- The sequence with `x = 100`, `y = 200`, `z = 300` on every sample. -/
def constSeq : Nat → Nat → Int :=
  fun axis _ => if axis = 0 then 100 else if axis = 1 then 200 else 300

/-- The sequence `constSeq` with the x axis raised by `1001` on every sample. -/
def shiftedSeq : Nat → Nat → Int :=
  fun axis i => if axis = 0 then constSeq axis i + 1001 else constSeq axis i

/-- The samples `1, 2, 3, 4, 5`. -/
def oneToFive : Nat → Int := fun i => ([1, 2, 3, 4, 5] : List Int).getD i 0

/-- State right after the first button press: recording requested, index 0,
`recordedSequence` still zero-initialised. -/
def pressedState : State := buttonPressed_cb initState

/-- A state in the middle of a recording, 17 samples stored. -/
def midRecordingState : State :=
  { initState with recording := true, recordLed := true, sequenceIndex := 17 }

/-- Hardware behaviour in which each loop iteration takes exactly the 50 ms
sleep and every received byte is `1` (each axis reads `257`). -/
def exactClockEnv : IterEnv :=
  { clock := fun k => 50 * k
    gyro := fun _ _ => 1 }

/-- Outputs that belong to the matching branch: the "Comparing..." line that
precedes a capture, and the unlock LED driven high. -/
def isCompareOutput (e : Output) : Prop :=
  e = Output.console Msg.comparing ∨ e = Output.unlockLed true

/-- In the trace, every output of the matching branch comes after a
"Stopped recording." line. -/
def Guarded (t : List Output) : Prop :=
  ∀ pre e post, t = pre ++ e :: post → isCompareOutput e →
    Output.console Msg.stoppedRecording ∈ pre

/-- Per-axis acceptance test of `sequenceMatch` on the binary64 statistics. -/
def axisAccepted64 (tol : ℚ) (seq1 seq2 : Nat → Nat → Int) (axis : Nat) : Prop :=
  abs (round64 (mean64 (seq1 axis) SEQUENCE_LENGTH - mean64 (seq2 axis) SEQUENCE_LENGTH)) ≤ tol ∧
  abs (round64
      (stddev64 (seq1 axis) SEQUENCE_LENGTH (mean64 (seq1 axis) SEQUENCE_LENGTH)
        - stddev64 (seq2 axis) SEQUENCE_LENGTH (mean64 (seq2 axis) SEQUENCE_LENGTH))) ≤ tol

theorem foldl_range_add (f : Nat → ℝ) (n : Nat) :
    (List.range n).foldl (fun acc i => acc + f i) 0 = ∑ i in Finset.range n, f i := by
  induction n with
  | zero => simp
  | succ k ih => rw [List.range_succ, List.foldl_append, ih, Finset.sum_range_succ]; simp

theorem mean_eq_popMean (data : Nat → Int) (size : Nat) :
    mean data size = popMean data size := by
  unfold mean popMean
  simp only
  rw [foldl_range_add (fun i => (data i : ℝ))]

theorem stddev_eq (data : Nat → Int) (size : Nat) (m : ℝ) :
    stddev data size m
      = Real.sqrt ((∑ i in Finset.range size, ((data i : ℝ) - m) ^ 2) / (size : ℝ)) := by
  unfold stddev
  simp only
  rw [foldl_range_add (fun i => ((data i : ℝ) - m) * ((data i : ℝ) - m))]
  simp only [sq]

theorem stddev_eq_popStddev (data : Nat → Int) (size : Nat) :
    stddev data size (mean data size) = popStddev data size := by
  rw [stddev_eq, mean_eq_popMean]
  rfl

theorem sequenceMatchLoop_step (tol : ℝ) (seq1 seq2 : Nat → Nat → Int) (axis : Nat)
    (h : axis < NUM_AXES) :
    (sequenceMatchLoop tol seq1 seq2 axis = true) ↔
      (axisAccepted tol seq1 seq2 axis ∧ sequenceMatchLoop tol seq1 seq2 (axis + 1) = true) := by
  rw [sequenceMatchLoop]
  simp only [h, if_true, axisAccepted]
  by_cases hc : abs (mean (seq1 axis) SEQUENCE_LENGTH - mean (seq2 axis) SEQUENCE_LENGTH) > tol ∨
      abs (stddev (seq1 axis) SEQUENCE_LENGTH (mean (seq1 axis) SEQUENCE_LENGTH)
        - stddev (seq2 axis) SEQUENCE_LENGTH (mean (seq2 axis) SEQUENCE_LENGTH)) > tol
  · rw [if_pos hc]
    constructor
    · intro h0; cases h0
    · rintro ⟨⟨h1, h2⟩, _⟩
      rcases hc with hc | hc
      · exact absurd h1 (not_le.mpr hc)
      · exact absurd h2 (not_le.mpr hc)
  · rw [if_neg hc]
    push_neg at hc
    constructor
    · intro h0; exact ⟨hc, h0⟩
    · intro h0; exact h0.2

theorem sequenceMatchLoop_done (tol : ℝ) (seq1 seq2 : Nat → Nat → Int) :
    sequenceMatchLoop tol seq1 seq2 3 = true := by
  rw [sequenceMatchLoop]
  simp [NUM_AXES]

theorem sequenceMatchLoop_iff (tol : ℝ) (seq1 seq2 : Nat → Nat → Int) :
    sequenceMatchLoop tol seq1 seq2 0 = true ↔
      ∀ axis, axis < 3 → axisAccepted tol seq1 seq2 axis := by
  rw [sequenceMatchLoop_step tol seq1 seq2 0 (by decide),
    sequenceMatchLoop_step tol seq1 seq2 1 (by decide),
    sequenceMatchLoop_step tol seq1 seq2 2 (by decide)]
  simp only [Nat.reduceAdd, sequenceMatchLoop_done, and_true]
  constructor
  · rintro ⟨h0, h1, h2⟩ axis ha
    interval_cases axis
    · exact h0
    · exact h1
    · exact h2
  · intro h
    exact ⟨h 0 (by decide), h 1 (by decide), h 2 (by decide)⟩

/-! ## Lemmas on the recording loop -/

theorem storeSample_apply (seq : Nat → Nat → Int) (index : Nat) (data : Nat → Int)
    (axis i : Nat) :
    storeSample seq index data axis i
      = if axis < NUM_AXES ∧ i = index then data axis else seq axis i := by
  have hr : List.range NUM_AXES = [0, 1, 2] := by decide
  unfold storeSample
  rw [hr]
  simp only [List.foldl_cons, List.foldl_nil, Function.update_apply, NUM_AXES]
  by_cases h2 : axis = 2
  · subst h2; simp [Function.update_apply]
  · by_cases h1 : axis = 1
    · subst h1; simp [Function.update_apply]
    · by_cases h0 : axis = 0
      · subst h0; simp [Function.update_apply]
      · have : ¬ axis < 3 := by omega
        simp [h0, h1, h2, this]

theorem recordLoop_spec (budget : Nat) (env : IterEnv) :
    ∀ (n k : Nat) (s : State),
      (∀ j, j < n → env.clock (k + j) < budget) →
      s.sequenceIndex + n ≤ SEQUENCE_LENGTH →
      (¬ env.clock (k + n) < budget ∨ s.sequenceIndex + n = SEQUENCE_LENGTH) →
      recordLoop budget env k s = afterRecording env k n s := by
  intro n
  induction n with
  | zero =>
    intro k s _ _ hstop
    rw [recordLoop]
    have hc : ¬ (env.clock k < budget ∧ s.sequenceIndex < SEQUENCE_LENGTH) := by
      rintro ⟨h1, h2⟩
      rcases hstop with h | h
      · exact h (by simpa using h1)
      · simp at h; omega
    rw [if_neg hc]
    unfold afterRecording
    cases s with
    | mk rs idx rec has rl ul =>
      simp only [State.mk.injEq, and_true, true_and, Nat.add_zero]
      funext axis i
      have h3 : ¬ (axis < NUM_AXES ∧ idx ≤ i ∧ i < idx) := by omega
      rw [if_neg h3]
  | succ m ih =>
    intro k s hclk hle hstop
    rw [recordLoop]
    have hc : env.clock k < budget ∧ s.sequenceIndex < SEQUENCE_LENGTH :=
      ⟨by simpa using hclk 0 (Nat.succ_pos m), by omega⟩
    rw [if_pos hc]
    simp only
    rw [ih (k + 1)]
    · unfold afterRecording
      cases s with
      | mk rs idx rec has rl ul =>
        simp only [State.mk.injEq, and_true, true_and]
        refine ⟨?_, by omega⟩
        funext axis i
        rw [storeSample_apply]
        by_cases ha : axis < NUM_AXES
        · by_cases h1 : i = idx
          · subst h1
            simp [ha]
          · by_cases h2 : idx + 1 ≤ i ∧ i < idx + 1 + m
            · have h3 : idx ≤ i ∧ i < idx + (m + 1) := by omega
              have h4 : k + 1 + (i - (idx + 1)) = k + (i - idx) := by omega
              simp [ha, h1, h2, h3, h4]
            · have h3 : ¬ (idx ≤ i ∧ i < idx + (m + 1)) := by omega
              simp [ha, h1, h2, h3]
        · simp [ha]
    · intro j hj
      have := hclk (j + 1) (by omega)
      rwa [show k + 1 + j = k + (j + 1) by omega]
    · simp only; omega
    · simp only
      rcases hstop with h | h
      · left; rwa [show k + 1 + m = k + (m + 1) by omega]
      · right; omega

theorem exists_stop (budget : Nat) (clock : Nat → Nat) (k : Nat) :
    ∀ m : Nat, ∃ n, n ≤ m ∧ (∀ j, j < n → clock (k + j) < budget) ∧
      (¬ clock (k + n) < budget ∨ n = m) := by
  intro m
  induction m with
  | zero => exact ⟨0, le_refl 0, fun j hj => absurd hj (Nat.not_lt_zero j), Or.inr rfl⟩
  | succ m ih =>
    obtain ⟨n, hn, hall, hstop⟩ := ih
    rcases hstop with h | h
    · exact ⟨n, Nat.le_succ_of_le hn, hall, Or.inl h⟩
    · subst h
      by_cases hc : clock (k + n) < budget
      · refine ⟨n + 1, le_refl _, ?_, Or.inr rfl⟩
        intro j hj
        rcases Nat.lt_succ_iff_lt_or_eq.mp hj with h | h
        · exact hall j h
        · rw [h]; exact hc
      · exact ⟨n, Nat.le_succ n, hall, Or.inl hc⟩

theorem recordLoop_exists (budget : Nat) (env : IterEnv) (k : Nat) (s : State)
    (hs : s.sequenceIndex ≤ SEQUENCE_LENGTH) :
    ∃ n, s.sequenceIndex + n ≤ SEQUENCE_LENGTH ∧
      (∀ j, j < n → env.clock (k + j) < budget) ∧
      (¬ env.clock (k + n) < budget ∨ s.sequenceIndex + n = SEQUENCE_LENGTH) ∧
      recordLoop budget env k s = afterRecording env k n s := by
  obtain ⟨n, hn, hall, hstop⟩ := exists_stop budget env.clock k (SEQUENCE_LENGTH - s.sequenceIndex)
  have hle : s.sequenceIndex + n ≤ SEQUENCE_LENGTH := by omega
  have hstop2 : ¬ env.clock (k + n) < budget ∨ s.sequenceIndex + n = SEQUENCE_LENGTH := by
    rcases hstop with h | h
    · exact Or.inl h
    · right; omega
  exact ⟨n, hle, hall, hstop2, recordLoop_spec budget env n k s hall hle hstop2⟩

/-- With a clock that advances by at least `period` per loop iteration, the
reading at check `j` is at least `j * period`. -/
theorem clock_lower_bound (clock : Nat → Nat) (period : Nat)
    (h : ∀ k, clock k + period ≤ clock (k + 1)) : ∀ j, j * period ≤ clock j := by
  intro j
  induction j with
  | zero => simp
  | succ j ih =>
    have := h j
    rw [Nat.succ_mul]
    omega

/-! ## Lemmas on sequence matching -/

theorem sequenceMatch_iff (seq1 seq2 : Nat → Nat → Int) :
    sequenceMatch seq1 seq2 = true ↔
      ∀ axis, axis < 3 →
        abs (popMean (seq1 axis) 50 - popMean (seq2 axis) 50) ≤ 1000 ∧
        abs (popStddev (seq1 axis) 50 - popStddev (seq2 axis) 50) ≤ 1000 := by
  unfold sequenceMatch
  rw [sequenceMatchLoop_iff]
  simp only [axisAccepted, stddev_eq_popStddev, SEQUENCE_LENGTH, TOLERANCE, Nat.cast_ofNat]
  simp only [mean_eq_popMean]

theorem popMean_shift (r c : Nat → Int) (n : Nat) (d : Int) (hn : 0 < n)
    (h : ∀ i, i < n → c i = r i + d) : popMean c n = popMean r n + d := by
  unfold popMean
  have hs : ∑ i in Finset.range n, (c i : ℝ) = ∑ i in Finset.range n, ((r i : ℝ) + (d : ℝ)) :=
    Finset.sum_congr rfl (fun i hi => by rw [h i (Finset.mem_range.mp hi)]; push_cast; ring)
  rw [hs, Finset.sum_add_distrib, Finset.sum_const, Finset.card_range, nsmul_eq_mul]
  have : (n : ℝ) ≠ 0 := Nat.cast_ne_zero.mpr (Nat.pos_iff_ne_zero.mp hn)
  field_simp
  ring

theorem popStddev_shift (r c : Nat → Int) (n : Nat) (d : Int) (hn : 0 < n)
    (h : ∀ i, i < n → c i = r i + d) : popStddev c n = popStddev r n := by
  unfold popStddev
  rw [popMean_shift r c n d hn h]
  have hs : ∑ i in Finset.range n, ((c i : ℝ) - (popMean r n + (d : ℝ))) ^ 2
      = ∑ i in Finset.range n, ((r i : ℝ) - popMean r n) ^ 2 :=
    Finset.sum_congr rfl (fun i hi => by rw [h i (Finset.mem_range.mp hi)]; push_cast; ring)
  rw [hs]

/-! ## Claims on the statistics and on sequence matching in exact arithmetic -/

/-- C2: when on one axis the candidate is the reference plus a constant offset
`c` with `|c| > TOLERANCE` on all 50 samples, the mean of that axis shifts by
exactly `c`, its standard deviation is unchanged, and `sequenceMatch` returns
`false` (whatever the other two axes hold). -/
theorem sequenceMatch_offset_rejected (R C : Nat → Nat → Int) (a : Nat) (c : Int)
    (ha : a < NUM_AXES)
    (hoff : ∀ i, i < SEQUENCE_LENGTH → C a i = R a i + c)
    (hc : (TOLERANCE : Int) < abs c) :
    mean (C a) SEQUENCE_LENGTH = mean (R a) SEQUENCE_LENGTH + (c : ℝ) ∧
    stddev (C a) SEQUENCE_LENGTH (mean (C a) SEQUENCE_LENGTH)
      = stddev (R a) SEQUENCE_LENGTH (mean (R a) SEQUENCE_LENGTH) ∧
    sequenceMatch R C = false := by
  have hm := popMean_shift (R a) (C a) SEQUENCE_LENGTH c (by decide) hoff
  have hsd := popStddev_shift (R a) (C a) SEQUENCE_LENGTH c (by decide) hoff
  refine ⟨by rw [mean_eq_popMean, mean_eq_popMean, hm], ?_, ?_⟩
  · rw [stddev_eq_popStddev, stddev_eq_popStddev, hsd]
  · rw [← Bool.not_eq_true, sequenceMatch_iff]
    intro h
    have h1 := (h a ha).1
    simp only [SEQUENCE_LENGTH] at hm
    rw [hm] at h1
    have h2 : abs (c : ℝ) ≤ 1000 := by
      have : popMean (R a) 50 - (popMean (R a) 50 + (c : ℝ)) = -(c : ℝ) := by ring
      rwa [this, abs_neg] at h1
    have h3 : ((abs c : Int) : ℝ) ≤ ((1000 : Int) : ℝ) := by
      rw [Int.cast_abs]; simpa using h2
    have h4 : abs c ≤ 1000 := Int.cast_le.mp h3
    simp only [TOLERANCE] at hc
    omega

/-- C2 on the constant reference `x = 100, y = 200, z = 300` with the x axis of
the candidate raised by 1001. -/
theorem sequenceMatch_offset_rejected_witness :
    (0 < NUM_AXES ∧ (∀ i, i < SEQUENCE_LENGTH → shiftedSeq 0 i = constSeq 0 i + 1001) ∧
      (TOLERANCE : Int) < abs (1001 : Int)) ∧
    sequenceMatch constSeq shiftedSeq = false :=
  ⟨⟨by decide, fun _ _ => rfl, by decide⟩,
    (sequenceMatch_offset_rejected constSeq shiftedSeq 0 1001 (by decide) (fun _ _ => rfl)
      (by decide)).2.2⟩

/-- C3: matching is reflexive for every tolerance `tol ≥ 0`, and in
particular for the fixed `TOLERANCE`: `sequenceMatch S S` returns `true`. -/
theorem sequenceMatch_reflexive (S : Nat → Nat → Int) (tol : ℝ) (htol : 0 ≤ tol) :
    sequenceMatchLoop tol S S 0 = true ∧ sequenceMatch S S = true := by
  have h : ∀ t : ℝ, 0 ≤ t → sequenceMatchLoop t S S 0 = true := by
    intro t ht
    rw [sequenceMatchLoop_iff]
    intro axis _
    simp only [axisAccepted, sub_self, abs_zero]
    exact ⟨ht, ht⟩
  exact ⟨h tol htol, h _ (by simp [TOLERANCE])⟩

/-- C3 on the constant sequence `x = 100, y = 200, z = 300`, with tolerance 0. -/
theorem sequenceMatch_reflexive_witness :
    sequenceMatchLoop 0 constSeq constSeq 0 = true ∧ sequenceMatch constSeq constSeq = true :=
  sequenceMatch_reflexive constSeq 0 (le_refl 0)

/-- C9: for a non-empty array, `mean` is the sum of the samples divided by
`size` and `stddev` with that mean is the population standard deviation
`sqrt (Σ (data[i] - mean)² / size)`. -/
theorem mean_stddev_population (data : Nat → Int) (size : Nat) (hsize : 0 < size) :
    mean data size = (∑ i in Finset.range size, (data i : ℝ)) / (size : ℝ) ∧
    stddev data size (mean data size)
      = Real.sqrt ((∑ i in Finset.range size,
          ((data i : ℝ) - (∑ j in Finset.range size, (data j : ℝ)) / (size : ℝ)) ^ 2)
            / (size : ℝ)) := by
  have _ := hsize
  exact ⟨mean_eq_popMean data size, stddev_eq_popStddev data size⟩

/-- C9 on the samples `1, 2, 3, 4, 5`: mean 3, standard deviation `sqrt 2`. -/
theorem mean_stddev_population_witness :
    mean oneToFive 5 = 3 ∧ stddev oneToFive 5 (mean oneToFive 5) = Real.sqrt 2 := by
  have h := mean_stddev_population oneToFive 5 (by decide)
  have hsum : (∑ i in Finset.range 5, (oneToFive i : ℝ)) / ((5 : Nat) : ℝ) = 3 := by
    norm_num [Finset.sum_range_succ, oneToFive]
  rw [hsum] at h
  refine ⟨h.1, ?_⟩
  rw [h.2]
  congr 1
  norm_num [Finset.sum_range_succ, oneToFive]

/-- C10: matching is symmetric: `sequenceMatch A B = sequenceMatch B A`. -/
theorem sequenceMatch_symmetric (A B : Nat → Nat → Int) :
    sequenceMatch A B = sequenceMatch B A := by
  rw [Bool.eq_iff_iff, sequenceMatch_iff, sequenceMatch_iff]
  constructor <;>
  · intro h axis ha
    exact ⟨by rw [abs_sub_comm]; exact (h axis ha).1, by rw [abs_sub_comm]; exact (h axis ha).2⟩

/-! ## Sensor decoding -/

theorem decodeAxis_eq (lo hi : Fin 256) :
    decodeAxis lo hi
      = if (lo.val : Int) + 256 * (hi.val : Int) < 32768 then (lo.val : Int) + 256 * (hi.val : Int)
        else (lo.val : Int) + 256 * (hi.val : Int) - 65536 := by
  have hlo : lo.val < 2 ^ 8 := lo.isLt
  have hhi := hi.isLt
  have hor : (hi.val <<< 8) ||| lo.val = 2 ^ 8 * hi.val + lo.val := by
    rw [Nat.shiftLeft_eq, Nat.mul_comm]
    exact (Nat.mul_add_lt_is_or hlo hi.val).symm
  unfold decodeAxis toInt16
  rw [hor]
  push_cast
  have hlo2 : lo.val < 256 := lo.isLt
  split_ifs <;> omega

theorem decodeAxis_leBytes (v : Int) (hv : isInt16 v) :
    decodeAxis (leBytes v).1 (leBytes v).2 = v := by
  obtain ⟨h1, h2⟩ := hv
  rw [decodeAxis_eq]
  simp only [leBytes]
  have hu : ((v % 65536).toNat : Int) = v % 65536 := Int.toNat_of_nonneg (by omega)
  generalize (v % 65536).toNat = u at hu
  push_cast
  split_ifs <;> omega

/-! ## Claims on the sensor read and on the button handler -/

/-- C8: `read_gyro_data` stores in `data[k]`, for `k = 0, 1, 2`, the signed
16-bit value of the little-endian pair `read_buf[1+2k]`, `read_buf[2+2k]` (the
sum `lo + 256 * hi` if it is below 32768, the sum minus 65536 otherwise), and
decoding the little-endian byte pair of a signed 16-bit value gives it back. -/
theorem read_gyro_data_little_endian :
    (∀ (read_buf : Nat → Fin 256) (data : Nat → Int) (k : Nat), k < 3 →
      read_gyro_data read_buf data k
        = if ((read_buf (1 + 2 * k)).val : Int) + 256 * ((read_buf (2 + 2 * k)).val : Int) < 32768
          then ((read_buf (1 + 2 * k)).val : Int) + 256 * ((read_buf (2 + 2 * k)).val : Int)
          else ((read_buf (1 + 2 * k)).val : Int) + 256 * ((read_buf (2 + 2 * k)).val : Int)
            - 65536) ∧
    (∀ (read_buf : Nat → Fin 256) (data : Nat → Int) (k : Nat) (v : Int), k < 3 →
      isInt16 v → read_buf (1 + 2 * k) = (leBytes v).1 → read_buf (2 + 2 * k) = (leBytes v).2 →
      read_gyro_data read_buf data k = v) := by
  have hread : ∀ (read_buf : Nat → Fin 256) (data : Nat → Int) (k : Nat), k < 3 →
      read_gyro_data read_buf data k
        = decodeAxis (read_buf (1 + 2 * k)) (read_buf (2 + 2 * k)) := by
    intro read_buf data k hk
    unfold read_gyro_data
    interval_cases k <;> simp [Function.update_apply]
  constructor
  · intro read_buf data k hk
    rw [hread read_buf data k hk, decodeAxis_eq]
  · intro read_buf data k v hk hv hlo hhi
    rw [hread read_buf data k hk, hlo, hhi]
    exact decodeAxis_leBytes v hv

/-- C8 on the buffer whose bytes 1 and 2 are `0x18`, `0xFC`: the x axis reads
`-1000`. -/
theorem read_gyro_data_little_endian_witness :
    read_gyro_data (fun i => if i = 1 then 0x18 else if i = 2 then 0xFC else 0) (fun _ => 0) 0
      = -1000 := by
  have h := read_gyro_data_little_endian.1
    (fun i => if i = 1 then 0x18 else if i = 2 then 0xFC else 0) (fun _ => 0) 0 (by decide)
  rw [h]
  decide

/-- C7: while `recording` is true a button press leaves the whole state
unchanged; when `recording` is false the handler sets `recording`, switches
`recordLed` on, resets `sequenceIndex` to 0 and changes nothing else. -/
theorem buttonPressed_cb_reentrancy_guard (s : State) :
    (s.recording = true → buttonPressed_cb s = s) ∧
    (s.recording = false →
      (buttonPressed_cb s).recording = true ∧
      (buttonPressed_cb s).recordLed = true ∧
      (buttonPressed_cb s).sequenceIndex = 0 ∧
      (buttonPressed_cb s).hasRecordedSequence = s.hasRecordedSequence ∧
      (buttonPressed_cb s).recordedSequence = s.recordedSequence ∧
      (buttonPressed_cb s).unlockLed = s.unlockLed) := by
  constructor
  · intro h
    simp [buttonPressed_cb, h]
  · intro h
    simp [buttonPressed_cb, h]

theorem guarded_append (t out : List Output) (ht : Guarded t)
    (h : (∀ e, e ∈ out → ¬ isCompareOutput e) ∨ Output.console Msg.stoppedRecording ∈ t) :
    Guarded (t ++ out) := by
  intro pre e post heq he
  have inOut : ∀ a', pre = t ++ a' → out = a' ++ e :: post →
      Output.console Msg.stoppedRecording ∈ pre := by
    intro a' hpre hout
    rcases h with h | h
    · exact absurd he (h e (by rw [hout]; simp))
    · rw [hpre]; exact List.mem_append_left _ h
  rcases List.append_eq_append_iff.mp heq with ⟨a', hpre, hout⟩ | ⟨c', ht', hpost⟩
  · exact inOut a' hpre hout
  · cases c' with
    | nil =>
      simp only [List.append_nil, List.nil_append] at ht' hpost
      exact inOut [] (by simp [ht']) (by simp [hpost])
    | cons x xs =>
      simp only [List.cons_append, List.cons.injEq] at hpost
      obtain ⟨hx, _⟩ := hpost
      subst hx
      exact ht pre e xs ht' he

theorem handle_guarded (s : State) (i : Input) (t : List Output) (ht : Guarded t)
    (hs : s.hasRecordedSequence = true → Output.console Msg.stoppedRecording ∈ t) :
    Guarded (t ++ (handle s i).2) ∧
    ((handle s i).1.hasRecordedSequence = true →
      Output.console Msg.stoppedRecording ∈ t ++ (handle s i).2) := by
  cases i with
  | buttonPress =>
    have hhas : (buttonPressed_cb s).hasRecordedSequence = s.hasRecordedSequence := by
      unfold buttonPressed_cb
      split_ifs <;> rfl
    simp only [handle]
    constructor
    · apply guarded_append t _ ht
      left
      intro e he
      split_ifs at he
      · simp at he
      · simp only [List.mem_singleton] at he
        subst he
        simp [isCompareOutput]
    · intro h
      rw [hhas] at h
      exact List.mem_append_left _ (hs h)
  | iteration env =>
    simp only [handle, mainIteration]
    by_cases hrec : s.recording = true
    · simp only [hrec, if_true]
      constructor
      · apply guarded_append t _ ht
        left
        intro e he
        simp only [List.mem_cons, List.mem_singleton, List.not_mem_nil, or_false] at he
        rcases he with he | he | he <;> subst he <;> simp [isCompareOutput]
      · intro _
        simp
    · simp only [hrec]
      by_cases hhas : s.hasRecordedSequence = true
      · simp only [hhas, if_true]
        constructor
        · exact guarded_append t _ ht (Or.inr (hs hhas))
        · intro _
          exact List.mem_append_left _ (hs hhas)
      · simp only [hhas]
        simp only [Bool.false_eq_true, if_false, List.append_nil]
        exact ⟨ht, fun h => absurd h hhas⟩

theorem run_guarded : ∀ (inputs : List Input) (s : State) (t : List Output),
    Guarded t →
    (s.hasRecordedSequence = true → Output.console Msg.stoppedRecording ∈ t) →
    Guarded (t ++ (run s inputs).2) := by
  intro inputs
  induction inputs with
  | nil =>
    intro s t ht _
    simpa [run] using ht
  | cons i rest ih =>
    intro s t ht hs
    obtain ⟨h1, h2⟩ := handle_guarded s i t ht hs
    have := ih (handle s i).1 (t ++ (handle s i).2) h1 h2
    simpa [run, List.append_assoc] using this

theorem mainIteration_unlock_iff (env : IterEnv) (s : State) :
    Output.unlockLed true ∈ (mainIteration env s).2 ↔
      (s.recording = false ∧ s.hasRecordedSequence = true ∧
        sequenceMatch64 s.recordedSequence (captureSequence env) = true) := by
  unfold mainIteration
  by_cases hrec : s.recording = true
  · simp [hrec]
  · by_cases hhas : s.hasRecordedSequence = true
    · by_cases hm : sequenceMatch64 s.recordedSequence (captureSequence env) = true
      · simp [hrec, hhas, hm]
      · simp [hrec, hhas, hm]
    · simp [hrec, hhas]

/-- C4: in one iteration of the main loop `unlockLed` is driven high exactly
when `recording` is false, `hasRecordedSequence` is true and `sequenceMatch`
accepts the freshly captured sequence; an iteration entered with both flags
false changes nothing and outputs nothing; and in every run from the initial
state each "Comparing..." line and each unlock comes after a completed
recording. -/
theorem unlock_requires_match :
    (∀ (env : IterEnv) (s : State),
      Output.unlockLed true ∈ (mainIteration env s).2 ↔
        (s.recording = false ∧ s.hasRecordedSequence = true ∧
          sequenceMatch64 s.recordedSequence (captureSequence env) = true)) ∧
    (∀ (env : IterEnv) (s : State), s.recording = false → s.hasRecordedSequence = false →
      mainIteration env s = (s, [])) ∧
    (∀ (inputs : List Input) (pre post : List Output) (e : Output),
      (run initState inputs).2 = pre ++ e :: post →
      (e = Output.console Msg.comparing ∨ e = Output.unlockLed true) →
      Output.console Msg.stoppedRecording ∈ pre) := by
  refine ⟨mainIteration_unlock_iff, ?_, ?_⟩
  · intro env s h1 h2
    simp [mainIteration, h1, h2]
  · intro inputs pre post e heq he
    have hg : Guarded ([] ++ (run initState inputs).2) :=
      run_guarded inputs initState []
        (fun pre e post h _ => by simp at h)
        (fun h => by simp [initState] at h)
    exact hg pre e post (by simpa using heq) he

/-- C4 on the initial state (no recording requested, none completed): an
iteration of the main loop changes nothing and outputs nothing. -/
theorem unlock_requires_match_witness :
    mainIteration exactClockEnv initState = (initState, []) :=
  unlock_requires_match.2.1 exactClockEnv initState rfl rfl

/-- C5 as stated fails: with a budget of 2499 ms, which is shorter than
50 x 50 ms, and a clock that advances by exactly 50 ms per iteration, the
recording loop started at index 0 stores all 50 samples. -/
theorem recordLoop_budget_2499_stores_50 :
    2499 < 50 * 50 ∧
    (∀ k, exactClockEnv.clock k + 50 ≤ exactClockEnv.clock (k + 1)) ∧
    pressedState.sequenceIndex = 0 ∧
    ¬ (recordLoop 2499 exactClockEnv 0 pressedState).sequenceIndex < SEQUENCE_LENGTH := by
  refine ⟨by decide, ?_, rfl, ?_⟩
  · intro k
    simp only [exactClockEnv]
    omega
  · have h : recordLoop 2499 exactClockEnv 0 pressedState
        = afterRecording exactClockEnv 0 50 pressedState := by
      apply recordLoop_spec
      · intro j hj
        simp only [exactClockEnv]
        omega
      · decide
      · right
        decide
    rw [h]
    decide

/-- C5, amended: the recording loop started at index 0 is a total function of
the clock readings (it stops after at most 50 samples); when the budget is not
reached at any of the first 50 checks it ends with `sequenceIndex = 50`; when
every iteration advances the clock by at least 50 ms and the budget is at most
49 x 50 ms it ends with `sequenceIndex < 50`, and so it does for the device's
`RECORDING_INTERVAL_MS`. -/
theorem recordLoop_sample_count (budget : Nat) (env : IterEnv) (s : State)
    (hs : s.sequenceIndex = 0) :
    ((∀ k, k < SEQUENCE_LENGTH → env.clock k < budget) →
      (recordLoop budget env 0 s).sequenceIndex = SEQUENCE_LENGTH) ∧
    ((∀ k, env.clock k + 50 ≤ env.clock (k + 1)) → budget ≤ 49 * 50 →
      (recordLoop budget env 0 s).sequenceIndex < SEQUENCE_LENGTH) ∧
    ((∀ k, env.clock k + 50 ≤ env.clock (k + 1)) →
      (recordLoop RECORDING_INTERVAL_MS env 0 s).sequenceIndex < SEQUENCE_LENGTH) := by
  have short : ∀ b : Nat, (∀ k, env.clock k + 50 ≤ env.clock (k + 1)) → b ≤ 49 * 50 →
      (recordLoop b env 0 s).sequenceIndex < SEQUENCE_LENGTH := by
    intro b hclk hb
    obtain ⟨n, hle, hall, _, heq⟩ := recordLoop_exists b env 0 s (by rw [hs]; decide)
    rw [heq]
    simp only [afterRecording, hs, SEQUENCE_LENGTH] at hle ⊢
    by_contra hn
    have h49 := hall 49 (by omega)
    have hlb := clock_lower_bound env.clock 50 hclk 49
    simp only [Nat.zero_add] at h49
    omega
  refine ⟨?_, short budget, fun hclk => short RECORDING_INTERVAL_MS hclk (by decide)⟩
  intro hall
  have h := recordLoop_spec budget env SEQUENCE_LENGTH 0 s
    (fun j hj => by simpa using hall j hj) (by rw [hs]; decide) (Or.inr (by rw [hs]; decide))
  rw [h]
  simp [afterRecording, hs]

/-- C5 amended, on the clock that advances by exactly 50 ms per iteration:
budget 2500 ms gives 50 samples, budget 2450 ms fewer than 50. -/
theorem recordLoop_sample_count_witness :
    (recordLoop 2500 exactClockEnv 0 pressedState).sequenceIndex = SEQUENCE_LENGTH ∧
    (recordLoop 2450 exactClockEnv 0 pressedState).sequenceIndex < SEQUENCE_LENGTH :=
  ⟨(recordLoop_sample_count 2500 exactClockEnv pressedState rfl).1
      (fun k hk => by simp only [exactClockEnv, SEQUENCE_LENGTH] at hk ⊢; omega),
    (recordLoop_sample_count 2450 exactClockEnv pressedState rfl).2.1
      (fun k => by simp only [exactClockEnv]; omega) (by decide)⟩

/-- C7 in the middle of a recording (17 samples stored): a button press
changes nothing. -/
theorem buttonPressed_cb_reentrancy_guard_witness :
    midRecordingState.recording = true ∧ buttonPressed_cb midRecordingState = midRecordingState :=
  ⟨rfl, (buttonPressed_cb_reentrancy_guard midRecordingState).1 rfl⟩

/-! ## Lemmas on binary64 rounding -/

theorem log2_eq (q : ℚ) (k : ℤ) (hq : 0 < q) (h1 : (2 : ℚ) ^ k ≤ q)
    (h2 : q < (2 : ℚ) ^ (k + 1)) : Int.log 2 q = k := by
  apply le_antisymm
  · have h := (Int.lt_zpow_iff_log_lt (by norm_num : 1 < 2) hq).mp (by exact_mod_cast h2)
    omega
  · exact (Int.zpow_le_iff_le_log (by norm_num : 1 < 2) hq).mp (by exact_mod_cast h1)

theorem roundEven_of_lt (n : ℚ) (m : ℤ) (h1 : (m : ℚ) ≤ n) (h2 : n - m < 1 / 2) :
    roundEven n = m := by
  have hf : ⌊n⌋ = m := Int.floor_eq_iff.mpr ⟨h1, by linarith⟩
  simp only [roundEven, hf, if_pos h2]

theorem roundEven_intCast (z : ℤ) : roundEven (z : ℚ) = z :=
  roundEven_of_lt (z : ℚ) z (le_refl _) (by norm_num)

theorem roundEven_sub_le (n : ℚ) : |(roundEven n : ℚ) - n| ≤ 1 / 2 := by
  have h1 : (⌊n⌋ : ℚ) ≤ n := Int.floor_le n
  have h2 : n < ⌊n⌋ + 1 := Int.lt_floor_add_one n
  unfold roundEven
  simp only
  rw [abs_le]
  split_ifs <;> push_cast <;> constructor <;> linarith

theorem round64_zero : round64 0 = 0 := by simp [round64]

theorem round64_neg (q : ℚ) : round64 (-q) = -round64 q := by
  by_cases h0 : q = 0
  · subst h0; simp [round64_zero]
  · have h0' : -q ≠ 0 := neg_ne_zero.mpr h0
    unfold round64
    simp only [if_neg h0, if_neg h0', abs_neg]
    rcases lt_or_gt_of_ne h0 with h | h
    · have h' : ¬ (-q < 0) := by linarith
      simp only [if_pos h, if_neg h', neg_neg]
    · have h' : -q < 0 := by linarith
      have h3 : ¬ (q < 0) := by linarith
      simp only [if_pos h', if_neg h3]

/-- Rounding of a positive `q` in the binade `[2^k, 2^(k+1))`. -/
theorem round64_of_pos (q : ℚ) (k : ℤ) (hq : 0 < q) (h1 : (2 : ℚ) ^ k ≤ q)
    (h2 : q < (2 : ℚ) ^ (k + 1)) :
    round64 q = (roundEven (q / 2 ^ (k - 52)) : ℚ) * 2 ^ (k - 52) := by
  have hne : q ≠ 0 := ne_of_gt hq
  have hn : ¬ q < 0 := not_lt.mpr (le_of_lt hq)
  unfold round64
  simp only [if_neg hne, if_neg hn, abs_of_pos hq, log2_eq q k hq h1 h2]

theorem binade_of_pos (a : ℚ) (ha : 0 < a) :
    (2 : ℚ) ^ (Int.log 2 a) ≤ a ∧ a < (2 : ℚ) ^ (Int.log 2 a + 1) := by
  constructor
  · have := Int.zpow_log_le_self (by norm_num : 1 < 2) ha
    exact_mod_cast this
  · have := Int.lt_zpow_succ_log_self (by norm_num : 1 < 2) a
    exact_mod_cast this

/-- Integers below `2^53` in magnitude are binary64 values. -/
theorem round64_intCast (z : ℤ) (hz : |z| < 2 ^ 53) : round64 (z : ℚ) = z := by
  have pos : ∀ n : ℤ, 0 < n → n < 2 ^ 53 → round64 (n : ℚ) = n := by
    intro n hn hlt
    have hq : (0 : ℚ) < n := by exact_mod_cast hn
    obtain ⟨hk1, hk2⟩ := binade_of_pos (n : ℚ) hq
    have hle : Int.log 2 (n : ℚ) ≤ 52 := by
      have h := (Int.lt_zpow_iff_log_lt (by norm_num : 1 < 2) hq).mp
        (show (n : ℚ) < ((2 : ℕ) : ℚ) ^ (53 : ℤ) by norm_cast)
      omega
    rw [round64_of_pos (n : ℚ) _ hq hk1 hk2]
    obtain ⟨d, hd⟩ : ∃ d : ℕ, (52 : ℤ) - Int.log 2 (n : ℚ) = d :=
      ⟨(52 - Int.log 2 (n : ℚ)).toNat, (Int.toNat_of_nonneg (by omega)).symm⟩
    have he : Int.log 2 (n : ℚ) - 52 = -(d : ℤ) := by omega
    rw [he]
    have hdiv : (n : ℚ) / 2 ^ (-(d : ℤ)) = ((n * 2 ^ d : ℤ) : ℚ) := by
      rw [zpow_neg, zpow_natCast]
      push_cast
      field_simp
    rw [hdiv, roundEven_intCast, zpow_neg, zpow_natCast]
    push_cast
    field_simp
  rcases lt_trichotomy z 0 with h | h | h
  · have hz' : -z < 2 ^ 53 := by rwa [abs_of_neg h] at hz
    have h1 := pos (-z) (by omega) hz'
    have h2 : round64 (-(z : ℚ)) = -(z : ℚ) := by exact_mod_cast h1
    rw [round64_neg] at h2
    linarith
  · subst h; simp [round64_zero]
  · exact pos z h (by rwa [abs_of_pos h] at hz)

/-- Relative error of one rounding: at most `2^-53`. -/
theorem round64_error (q : ℚ) : |round64 q - q| ≤ |q| / 2 ^ 53 := by
  have pos : ∀ a : ℚ, 0 < a → |round64 a - a| ≤ a / 2 ^ 53 := by
    intro a ha
    obtain ⟨hk1, hk2⟩ := binade_of_pos a ha
    rw [round64_of_pos a _ ha hk1 hk2]
    set e : ℤ := Int.log 2 a - 52 with he
    have hu : (0 : ℚ) < 2 ^ e := zpow_pos (by norm_num) e
    have h := roundEven_sub_le (a / 2 ^ e)
    have h3 : (roundEven (a / 2 ^ e) : ℚ) * 2 ^ e - a
        = ((roundEven (a / 2 ^ e) : ℚ) - a / 2 ^ e) * 2 ^ e := by
      field_simp
    rw [h3, abs_mul, abs_of_pos hu]
    have h4 : (2 : ℚ) ^ e * 2 ^ (52 : ℤ) = 2 ^ (Int.log 2 a) := by
      rw [← zpow_add₀ (by norm_num : (2 : ℚ) ≠ 0)]
      congr 1
      omega
    have h5 : (2 : ℚ) ^ e / 2 ≤ a / 2 ^ 53 := by
      have h7 : (2 : ℚ) ^ e * 2 ^ (52 : ℤ) ≤ a := by rw [h4]; exact hk1
      have h6 : (2 : ℚ) ^ (52 : ℤ) = 2 ^ 52 := by norm_cast
      rw [h6] at h7
      rw [div_le_div_iff₀ (by norm_num) (by positivity)]
      nlinarith
    calc |(roundEven (a / 2 ^ e) : ℚ) - a / 2 ^ e| * 2 ^ e ≤ 1 / 2 * 2 ^ e :=
          mul_le_mul_of_nonneg_right h (le_of_lt hu)
      _ = 2 ^ e / 2 := by ring
      _ ≤ a / 2 ^ 53 := h5
  rcases lt_trichotomy q 0 with h | h | h
  · have h1 := pos (-q) (by linarith)
    rw [round64_neg] at h1
    rw [abs_of_neg h]
    have h2 : -round64 q - -q = -(round64 q - q) := by ring
    rwa [h2, abs_neg] at h1
  · subst h; simp [round64_zero]
  · rw [abs_of_pos h]; exact pos q h

/-- The additions of `std::accumulate` are exact as long as the partial sums
stay below `2^53`. -/
theorem foldl_round64_add (data : Nat → Int) (B : Nat) (n : Nat)
    (hb : ∀ i, i < n → |data i| ≤ (B : ℤ)) (hn : (n : ℤ) * B < 2 ^ 53) :
    (List.range n).foldl (fun acc i => round64 (acc + (data i : ℚ))) 0
      = ((∑ i in Finset.range n, data i : ℤ) : ℚ) ∧
    |∑ i in Finset.range n, data i| ≤ (n : ℤ) * B := by
  induction n with
  | zero => simp
  | succ k ih =>
    have hB : (0 : ℤ) ≤ B := Int.natCast_nonneg B
    have hk : (k : ℤ) * B < 2 ^ 53 := by
      push_cast at hn
      nlinarith
    obtain ⟨h1, h2⟩ := ih (fun i hi => hb i (Nat.lt_succ_of_lt hi)) hk
    have h3 : |∑ i in Finset.range (k + 1), data i| ≤ ((k + 1 : ℕ) : ℤ) * B := by
      rw [Finset.sum_range_succ]
      have := hb k (Nat.lt_succ_self k)
      have := abs_add (∑ i in Finset.range k, data i) (data k)
      push_cast
      linarith
    refine ⟨?_, h3⟩
    rw [List.range_succ, List.foldl_append, h1]
    simp only [List.foldl_cons, List.foldl_nil]
    rw [Finset.sum_range_succ]
    have h4 : ((∑ i in Finset.range k, data i : ℤ) : ℚ) + (data k : ℚ)
        = ((∑ i in Finset.range k, data i + data k : ℤ) : ℚ) := by push_cast; ring
    rw [h4]
    apply round64_intCast
    rw [Finset.sum_range_succ] at h3
    exact lt_of_le_of_lt h3 hn

theorem abs_le_of_isInt16 (v : Int) (h : isInt16 v) : |v| ≤ ((32768 : ℕ) : ℤ) := by
  obtain ⟨h1, h2⟩ := h
  rw [abs_le]
  constructor <;> push_cast <;> omega

/-- On `int16_t` samples the sum of `mean` is exact: the only rounding is that
of the division. -/
theorem mean64_eq (data : Nat → Int) (hb : ∀ i, i < SEQUENCE_LENGTH → isInt16 (data i)) :
    mean64 data SEQUENCE_LENGTH
      = round64 (((∑ i in Finset.range SEQUENCE_LENGTH, data i : ℤ) : ℚ) / 50) ∧
    |∑ i in Finset.range SEQUENCE_LENGTH, data i| ≤ 50 * 32768 := by
  have h := foldl_round64_add data 32768 SEQUENCE_LENGTH
    (fun i hi => abs_le_of_isInt16 _ (hb i hi)) (by norm_num [SEQUENCE_LENGTH])
  refine ⟨?_, by simpa [SEQUENCE_LENGTH] using h.2⟩
  unfold mean64
  simp only
  rw [h.1]
  norm_num [SEQUENCE_LENGTH]

/-- On `int16_t` samples, sums that differ by more than `50 * TOLERANCE` give a
computed mean delta above the tolerance: the three roundings involved are
each below `1/1000`, the exact delta is at least `1000.02` in magnitude. -/
theorem meanDelta64_gt (d1 d2 : Nat → Int)
    (h1 : ∀ i, i < SEQUENCE_LENGTH → isInt16 (d1 i))
    (h2 : ∀ i, i < SEQUENCE_LENGTH → isInt16 (d2 i))
    (hgt : 50 * (TOLERANCE : ℤ)
      < |∑ i in Finset.range SEQUENCE_LENGTH, d1 i - ∑ i in Finset.range SEQUENCE_LENGTH, d2 i|) :
    (TOLERANCE : ℚ)
      < abs (round64 (mean64 d1 SEQUENCE_LENGTH - mean64 d2 SEQUENCE_LENGTH)) := by
  obtain ⟨hm1, hS1⟩ := mean64_eq d1 h1
  obtain ⟨hm2, hS2⟩ := mean64_eq d2 h2
  rw [hm1, hm2]
  generalize (∑ i in Finset.range SEQUENCE_LENGTH, d1 i) = S1 at hS1 hgt
  generalize (∑ i in Finset.range SEQUENCE_LENGTH, d2 i) = S2 at hS2 hgt
  simp only [TOLERANCE, Nat.cast_ofNat] at hgt ⊢
  have hS1q : |(S1 : ℚ)| ≤ 50 * 32768 := by exact_mod_cast hS1
  have hS2q : |(S2 : ℚ)| ≤ 50 * 32768 := by exact_mod_cast hS2
  rw [abs_le] at hS1q hS2q
  obtain ⟨s1l, s1u⟩ := hS1q
  obtain ⟨s2l, s2u⟩ := hS2q
  have b1 : |(S1 : ℚ) / 50| ≤ 32768 := by
    rw [abs_le]; constructor <;> linarith
  have b2 : |(S2 : ℚ) / 50| ≤ 32768 := by
    rw [abs_le]; constructor <;> linarith
  have hδ : (32768 : ℚ) / 2 ^ 53 ≤ 1 / 1000 := by norm_num
  have e1 : |round64 ((S1 : ℚ) / 50) - (S1 : ℚ) / 50| ≤ 1 / 1000 :=
    le_trans (round64_error _) (le_trans (div_le_div_of_nonneg_right b1 (by positivity)) hδ)
  have e2 : |round64 ((S2 : ℚ) / 50) - (S2 : ℚ) / 50| ≤ 1 / 1000 :=
    le_trans (round64_error _) (le_trans (div_le_div_of_nonneg_right b2 (by positivity)) hδ)
  rw [abs_le] at e1 e2
  obtain ⟨e1l, e1u⟩ := e1
  obtain ⟨e2l, e2u⟩ := e2
  generalize hx : round64 ((S1 : ℚ) / 50) - round64 ((S2 : ℚ) / 50) = x
  have hxl : ((S1 : ℚ) - S2) / 50 - 2 / 1000 ≤ x := by rw [← hx]; linarith
  have hxu : x ≤ ((S1 : ℚ) - S2) / 50 + 2 / 1000 := by rw [← hx]; linarith
  have hxabs : |x| ≤ 65537 := by
    rw [abs_le]; constructor <;> linarith
  have hδ3 : (65537 : ℚ) / 2 ^ 53 ≤ 1 / 1000 := by norm_num
  have e3 : |round64 x - x| ≤ 1 / 1000 :=
    le_trans (round64_error x)
      (le_trans (div_le_div_of_nonneg_right hxabs (by positivity)) hδ3)
  rw [abs_le] at e3
  obtain ⟨e3l, e3u⟩ := e3
  have hD : (50001 : ℚ) ≤ (S1 : ℚ) - S2 ∨ (S1 : ℚ) - S2 ≤ -50001 := by
    rcases le_or_lt 0 (S1 - S2) with h | h
    · rw [abs_of_nonneg h] at hgt
      left
      have : (50001 : ℤ) ≤ S1 - S2 := by omega
      exact_mod_cast this
    · rw [abs_of_neg h] at hgt
      right
      have : S1 - S2 ≤ (-50001 : ℤ) := by omega
      exact_mod_cast this
  rcases hD with h | h
  · have h6 : 1000 < round64 x := by linarith
    rw [abs_of_pos (by linarith)]
    exact h6
  · have h6 : round64 x < -1000 := by linarith
    rw [abs_of_neg (by linarith)]
    linarith

theorem sequenceMatchLoop64_step (tol : ℚ) (seq1 seq2 : Nat → Nat → Int) (axis : Nat)
    (h : axis < NUM_AXES) :
    (sequenceMatchLoop64 tol seq1 seq2 axis = true) ↔
      (axisAccepted64 tol seq1 seq2 axis ∧
        sequenceMatchLoop64 tol seq1 seq2 (axis + 1) = true) := by
  rw [sequenceMatchLoop64]
  simp only [h, if_true, axisAccepted64]
  split_ifs with hc
  · constructor
    · intro h0; cases h0
    · rintro ⟨⟨h1, h2⟩, _⟩
      rcases hc with hc | hc
      · exact absurd h1 (not_le.mpr hc)
      · exact absurd h2 (not_le.mpr hc)
  · push_neg at hc
    constructor
    · intro h0; exact ⟨hc, h0⟩
    · intro h0; exact h0.2

theorem sequenceMatchLoop64_done (tol : ℚ) (seq1 seq2 : Nat → Nat → Int) :
    sequenceMatchLoop64 tol seq1 seq2 3 = true := by
  rw [sequenceMatchLoop64]
  simp [NUM_AXES]

theorem sequenceMatchLoop64_iff (tol : ℚ) (seq1 seq2 : Nat → Nat → Int) :
    sequenceMatchLoop64 tol seq1 seq2 0 = true ↔
      ∀ axis, axis < 3 → axisAccepted64 tol seq1 seq2 axis := by
  rw [sequenceMatchLoop64_step tol seq1 seq2 0 (by decide),
    sequenceMatchLoop64_step tol seq1 seq2 1 (by decide),
    sequenceMatchLoop64_step tol seq1 seq2 2 (by decide)]
  simp only [Nat.reduceAdd, sequenceMatchLoop64_done, and_true]
  constructor
  · rintro ⟨h0, h1, h2⟩ axis ha
    interval_cases axis
    · exact h0
    · exact h1
    · exact h2
  · intro h
    exact ⟨h 0 (by decide), h 1 (by decide), h 2 (by decide)⟩


/-! ## Evaluation of the binary64 statistics on concrete sequences -/

/-- Reflexivity in binary64: both computed deltas of `(S, S)` are 0. -/
theorem sequenceMatch64_reflexive (S : Nat → Nat → Int) (tol : ℚ) (htol : 0 ≤ tol) :
    sequenceMatchLoop64 tol S S 0 = true ∧ sequenceMatch64 S S = true := by
  have h : ∀ t : ℚ, 0 ≤ t → sequenceMatchLoop64 t S S 0 = true := by
    intro t ht
    rw [sequenceMatchLoop64_iff]
    intro axis _
    simp only [axisAccepted64, sub_self, round64_zero, abs_zero]
    exact ⟨ht, ht⟩
  exact ⟨h tol htol, h _ (by simp [TOLERANCE])⟩

/-- Symmetry in binary64: rounding commutes with negation, so the computed
deltas of `(A, B)` and `(B, A)` have the same magnitude. -/
theorem sequenceMatch64_symmetric (A B : Nat → Nat → Int) :
    sequenceMatch64 A B = sequenceMatch64 B A := by
  have hswap : ∀ x y : ℚ, abs (round64 (x - y)) = abs (round64 (y - x)) := by
    intro x y
    rw [← neg_sub y x, round64_neg, abs_neg]
  have hax : ∀ (X Y : Nat → Nat → Int) (axis : Nat),
      axisAccepted64 (TOLERANCE : ℚ) X Y axis → axisAccepted64 (TOLERANCE : ℚ) Y X axis := by
    intro X Y axis h
    unfold axisAccepted64 at h ⊢
    rw [hswap (mean64 (Y axis) _) _, hswap (stddev64 (Y axis) _ _) _]
    exact h
  unfold sequenceMatch64
  rw [Bool.eq_iff_iff, sequenceMatchLoop64_iff, sequenceMatchLoop64_iff]
  exact ⟨fun h axis ha => hax A B axis (h axis ha), fun h axis ha => hax B A axis (h axis ha)⟩

/-- Offset rejection in binary64: when reference and candidate hold `int16_t`
samples on axis `a` and the candidate is the reference plus a constant `c`
with `|c| > TOLERANCE` there, the computed mean delta exceeds the tolerance
and `sequenceMatch64` returns `false`. -/
theorem sequenceMatch64_offset_rejected (R C : Nat → Nat → Int) (a : Nat) (c : Int)
    (ha : a < NUM_AXES)
    (hR : ∀ i, i < SEQUENCE_LENGTH → isInt16 (R a i))
    (hC : ∀ i, i < SEQUENCE_LENGTH → isInt16 (C a i))
    (hoff : ∀ i, i < SEQUENCE_LENGTH → C a i = R a i + c)
    (hc : (TOLERANCE : Int) < abs c) :
    sequenceMatch64 R C = false := by
  have hsum : ∑ i in Finset.range SEQUENCE_LENGTH, C a i
      = ∑ i in Finset.range SEQUENCE_LENGTH, R a i + 50 * c := by
    rw [Finset.sum_congr rfl (fun i hi => hoff i (Finset.mem_range.mp hi)),
      Finset.sum_add_distrib, Finset.sum_const, Finset.card_range]
    simp [SEQUENCE_LENGTH]
  have hgap : 50 * (TOLERANCE : ℤ)
      < |∑ i in Finset.range SEQUENCE_LENGTH, R a i
          - ∑ i in Finset.range SEQUENCE_LENGTH, C a i| := by
    rw [hsum]
    have h : ∀ S : ℤ, S - (S + 50 * c) = -(50 * c) := fun S => by ring
    rw [h, abs_neg, abs_mul, abs_of_pos (by norm_num : (0 : ℤ) < 50)]
    linarith
  have hbig := meanDelta64_gt (R a) (C a) hR hC hgap
  rw [← Bool.not_eq_true]
  unfold sequenceMatch64
  rw [sequenceMatchLoop64_iff]
  intro hall
  exact absurd (hall a ha).1 (not_le.mpr hbig)

end GestureLock
